import Mathlib

/-!
Verification of the HashMover repository (`script.py`).

The script scans a source directory, selects files by extension, and
copies or moves them into a flat target directory, resolving filename
collisions either with a numeric suffix (`get_unique_path`) or with a
content-hash prefix of growing length (the Mode B loop inside `main`).

The embedding below models filenames as lists of characters, the target
directory as the list of filenames it currently contains, and file
contents as lists of bytes (`Nat`).  External collaborators
(`zlib.crc32`, the `hashlib` digest objects, and the set of algorithm
names the local `hashlib` build accepts) are parameters of the model,
collected in `HashEnv`; everything the script itself computes is
translated directly from the source.
-/

namespace HashMover

/-- A filename (or digest string): a list of characters. -/
abbrev Name := List Char

/-! ### Decimal rendering of a natural number (Python `str` / f-string) -/

/-- Builds the decimal digit characters of `n`, most significant first,
in front of `acc`.  Structural fuel; `fuel = n + 1` always suffices
because `n / 10 < n` for `n ≥ 10`. -/
def decDigitsAux : Nat → Nat → List Char → List Char
  | 0, _, acc => acc
  | fuel + 1, n, acc =>
    let c := Char.ofNat (48 + n % 10)
    if n < 10 then c :: acc else decDigitsAux fuel (n / 10) (c :: acc)

/-- Decimal representation of `n`, as rendered by Python's `str`. -/
def decChars (n : Nat) : List Char :=
  decDigitsAux (n + 1) n []

/-- Decodes a list of decimal digit characters back to a number; used only
to prove that `decChars` is injective. -/
def decVal (l : List Char) : Nat :=
  l.foldl (fun a c => 10 * a + (c.toNat - 48)) 0

/-! ### `os.path.splitext` (for a bare filename, no directory separators) -/

/-- Index of the last `'.'` in a list, if any (`str.rfind('.')`). -/
def rfindDot : List Char → Option Nat
  | [] => none
  | c :: cs =>
    match rfindDot cs with
    | some i => some (i + 1)
    | none => if c = '.' then some 0 else none

/-- `os.path.splitext` restricted to a filename with no path separator:
split at the last dot, unless every character before that dot is also a
dot (so `".txt"` does not split). -/
def splitext (fn : Name) : Name × Name :=
  match rfindDot fn with
  | none => (fn, [])
  | some i =>
    if (fn.take i).any (fun c => c ≠ '.') then (fn.take i, fn.drop i)
    else (fn, [])

/-! ### `get_unique_path` (script.py lines 21-35) -/

/-- The candidate produced by f-string `f"{base}_{counter}{ext}"`. -/
def candNum (base ext : Name) (counter : Nat) : Name :=
  base ++ '_' :: (decChars counter ++ ext)

/-- The `while True` loop of `get_unique_path`: return `filename` if no
entry with that name exists, otherwise retry with
`f"{base}_{counter}{ext}"` and `counter + 1`.  Structural fuel replaces
the unbounded loop; `existing.length + 1` steps are proven sufficient
below (`get_unique_path_total`). -/
def guPgo (existing : List Name) (base ext : Name) : Name → Nat → Nat → Option Name
  | _, _, 0 => none
  | filename, counter, fuel + 1 =>
    if filename ∈ existing then
      guPgo existing base ext (candNum base ext counter) (counter + 1) fuel
    else some filename

/-- `get_unique_path(dest_dir, filename)`, with the target directory
abstracted to the list of filenames it contains. -/
def get_unique_path (existing : List Name) (filename : Name) : Option Name :=
  guPgo existing (splitext filename).1 (splitext filename).2 filename 1 (existing.length + 1)

/-- The sequence of candidate names tried by `get_unique_path`:
the original filename first, then `base_1ext`, `base_2ext`, ... -/
def suffixSeq (fn base ext : Name) : Nat → Name
  | 0 => fn
  | n + 1 => candNum base ext (n + 1)

/-! ### The Mode B naming loop (script.py lines 112-125) -/

/-- The candidate `f"{full_hash[:prefix_len]}_{file_path.name}"`. -/
def candHash (digest name : Name) (p : Nat) : Name :=
  digest.take p ++ '_' :: name

/-- The `while True` loop of the hash-prefix mode, returning the chosen
destination name together with the list of prefix lengths probed.
The loop increments `prefix_len` only while `prefix_len < len(full_hash)`,
so the number of remaining increments is `len(full_hash) - prefix_len`;
that quantity is the structural argument `k`, and `k = 0` exactly when
`prefix_len >= len(full_hash)`, the condition of the fallback branch. -/
def modeBgo (existing : List Name) (digest name : Name) : Nat → Nat → Option Name × List Nat
  | 0, p =>
    if candHash digest name p ∈ existing then
      (get_unique_path existing (candHash digest name p), [p])
    else (some (candHash digest name p), [p])
  | k + 1, p =>
    if candHash digest name p ∈ existing then
      let r := modeBgo existing digest name k (p + 1)
      (r.1, p :: r.2)
    else (some (candHash digest name p), [p])

/-- Destination name chosen by the Mode B loop started at `prefix_len = p`. -/
def modeB (existing : List Name) (digest name : Name) (p : Nat) : Option Name :=
  (modeBgo existing digest name (digest.length - p) p).1

/-- The successive values taken by `prefix_len` during the Mode B loop. -/
def modeBTrace (existing : List Name) (digest name : Name) (p : Nat) : List Nat :=
  (modeBgo existing digest name (digest.length - p) p).2

/-! ### `compute_file_hash` (script.py lines 38-58) -/

/-- Splits a byte sequence into the successive blocks returned by
`iter(lambda: f.read(4096), b'')`.  Structural fuel: each step consumes
at least one byte, so `l.length` steps suffice. -/
def chunksGo : Nat → List Nat → List (List Nat)
  | _, [] => []
  | 0, l => [l]
  | fuel + 1, l => l.take 4096 :: chunksGo fuel (l.drop 4096)

/-- The 4096-byte blocks of a file's content. -/
def chunks4096 (l : List Nat) : List (List Nat) :=
  chunksGo l.length l

/-- `hash_val = zlib.crc32(chunk, hash_val)` folded over the blocks. -/
def crcFold (crc : List Nat → Nat → Nat) : List (List Nat) → Nat → Nat
  | [], v => v
  | c :: cs, v => crcFold crc cs (crc c v)

/-- Lowercase hexadecimal digit characters. -/
def hexDigit (n : Nat) : Char :=
  (("0123456789abcdef".data).getD n '0')

/-- The two hex characters of one byte. -/
def hexByte (b : Nat) : List Char :=
  [hexDigit (b / 16 % 16), hexDigit (b % 16)]

/-- `hexdigest()`: lowercase hexadecimal rendering of a digest's bytes. -/
def hexBytes (bs : List Nat) : List Char :=
  bs.flatMap hexByte

/-- Errors raised inside the per-file `try` block: `ValueError` for an
unrecognized algorithm name, any I/O failure (unreadable file, failed
copy or move), and the `TypeError` raised by a zero-argument
`hexdigest()` on a variable-length (shake) digest object. -/
inductive Err where
  | unsupportedAlgorithm (alg : Name)
  | ioError
  | typeError
deriving DecidableEq

/-- The external hashing collaborators.  `newAccepted` is the set of
lowercase names `hashlib.new` accepts in the running environment
(anything else raises `ValueError`); `available` is the subset of those
whose digest objects support the zero-argument `hexdigest()` call the
script makes — the shake XOFs are accepted by `hashlib.new` but their
`hexdigest` requires a length argument and raises `TypeError` without
one, so they are outside `available`.  `digest` maps an available name
and a file's bytes to the digest's bytes, and `crc32` is `zlib.crc32`
on a block with a running value. -/
structure HashEnv where
  newAccepted : List Name
  available : List Name
  available_le : ∀ a ∈ available, a ∈ newAccepted
  digest : Name → List Nat → List Nat
  crc32 : List Nat → Nat → Nat

/-- `compute_file_hash(file_path, algorithm)`.  The file is modeled by
its content, `none` when it cannot be read.  `algorithm.upper() ==
"CRC32"` selects the checksum branch, which reads the file in blocks and
renders `hash_val & 0xffffffff` in decimal; otherwise
`hashlib.new(algorithm.lower())` is tried first (raising `ValueError`
for a name the build does not accept), then the file is read (raising
`IOError` when it cannot be), and finally the digest is rendered by
`hexdigest()` — a call that returns the lowercase hexadecimal string for
fixed-length hash objects but raises `TypeError` for the shake XOFs,
whose `hexdigest` requires a length argument. -/
def compute_file_hash (env : HashEnv) (content : Option (List Nat)) (alg : Name) :
    Except Err Name :=
  if alg.map Char.toUpper = ("CRC32".data) then
    match content with
    | none => .error .ioError
    | some bytes =>
      .ok (decChars (crcFold env.crc32 (chunks4096 bytes) 0 &&& 0xffffffff))
  else
    if alg.map Char.toLower ∈ env.newAccepted then
      match content with
      | none => .error .ioError
      | some bytes =>
        if alg.map Char.toLower ∈ env.available then
          .ok (hexBytes (env.digest (alg.map Char.toLower) bytes))
        else .error .typeError
    else .error (.unsupportedAlgorithm alg)

/-- `True` when an `Except` result is a success. -/
def exceptOk : Except Err Name → Bool
  | .ok _ => true
  | .error _ => false

/-- The algorithm set named by the specification:
CRC32, MD2, MD4, MD5, SHA256, SHA384, SHA512. -/
def specRecognizedSet : List Name :=
  [("CRC32".data), ("MD2".data), ("MD4".data), ("MD5".data),
   ("SHA256".data), ("SHA384".data), ("SHA512".data)]

/-- Modelled from the spec: the lowercase algorithm names every Python
`hashlib` build provides (`hashlib.algorithms_guaranteed`), i.e. names
`hashlib.new` accepts everywhere; the actual `hashlib.new` behavior is
outside this repository, and a concrete environment is needed to
exhibit a name the code accepts.  `md2` and `md4` are absent: they are
only available from optional OpenSSL providers. -/
def pythonHashlibGuaranteed : List Name :=
  [("md5".data), ("sha1".data), ("sha224".data), ("sha256".data),
   ("sha384".data), ("sha512".data), ("sha3_224".data), ("sha3_256".data),
   ("sha3_384".data), ("sha3_512".data), ("shake_128".data), ("shake_256".data),
   ("blake2b".data), ("blake2s".data)]

/-- Modelled from the spec: the guaranteed names minus the two shake
XOFs.  For these, `hexdigest()` takes no argument and returns the hex
string; for `shake_128`/`shake_256` it requires a length argument, so
the script's zero-argument call at line 58 raises `TypeError`. -/
def pythonHashlibFixedDigest : List Name :=
  [("md5".data), ("sha1".data), ("sha224".data), ("sha256".data),
   ("sha384".data), ("sha512".data), ("sha3_224".data), ("sha3_256".data),
   ("sha3_384".data), ("sha3_512".data), ("blake2b".data), ("blake2s".data)]

/-- A concrete `HashEnv` with the guaranteed `hashlib` names; the digest
and checksum functions themselves are irrelevant to acceptance and are
stubbed. -/
def hashlibEnv : HashEnv :=
  { newAccepted := pythonHashlibGuaranteed
    available := pythonHashlibFixedDigest
    available_le := by decide
    digest := fun _ _ => []
    crc32 := fun _ _ => 0 }

/-! ### Extension selection (script.py lines 99, 103-110) -/

/-- `pathlib.PurePath.suffix`: the part of the name from the last dot on,
empty when the name has no dot, starts with its only dot, or ends with
the dot. -/
def pySuffix (nm : Name) : Name :=
  match rfindDot nm with
  | none => []
  | some i => if 0 < i ∧ i < nm.length - 1 then nm.drop i else []

/-- Line 99: the configured extension, forced to start with `'.'`. -/
def normalizeExt (e : Name) : Name :=
  match e with
  | [] => ['.']
  | c :: t => if c = '.' then c :: t else '.' :: c :: t

/-- Lines 106-109: the extension match, exact or case-folded. -/
def matchesExt (caseSensitive : Bool) (fname ext : Name) : Bool :=
  if caseSensitive then decide (pySuffix fname = ext)
  else decide ((pySuffix fname).map Char.toLower = ext.map Char.toLower)

/-! ### The per-file loop of `main` (script.py lines 101-140) -/

/-- The command-line configuration fields the loop reads. -/
structure Config where
  prefixLength : Int
  algorithm : Name
  extension : Name
  caseSensitive : Bool
  move : Bool

/-- A regular file under the source tree: its bare name, its content
(`none` when unreadable), and whether the copy/move collaborator will
succeed on it. -/
structure SrcFile where
  name : Name
  content : Option (List Nat)
  placeOk : Bool

/-- One line printed by the loop: a success with its destination, or a
caught per-file failure with the offending file and the reason. -/
inductive LogEntry where
  | ok (src dest : Name)
  | fail (src : Name) (e : Err)

/-- The source path a log line reports. -/
def LogEntry.src : LogEntry → Name
  | .ok s _ => s
  | .fail s _ => s

/-- Whether a log line reports a success. -/
def LogEntry.isOk : LogEntry → Bool
  | .ok _ _ => true
  | .fail _ _ => false

/-- Whether the loop selects a file (lines 106-110). -/
def matchesCfg (cfg : Config) (f : SrcFile) : Bool :=
  matchesExt cfg.caseSensitive f.name (normalizeExt cfg.extension)

/-- The body of the `try` block for one selected file: name a destination
(Mode B when `prefix_length != 0`, else `get_unique_path`), then place
the file there.  The `none` branches of the namers are unreachable
(`get_unique_path_total`, `modeB_total`) and conservatively mapped to an
I/O failure. -/
def processFile (env : HashEnv) (cfg : Config) (existing : List Name) (f : SrcFile) :
    Except Err Name :=
  let named : Except Err Name :=
    if cfg.prefixLength ≠ 0 then
      match compute_file_hash env f.content cfg.algorithm with
      | .error e => .error e
      | .ok fullHash =>
        match modeB existing fullHash f.name cfg.prefixLength.natAbs with
        | some d => .ok d
        | none => .error .ioError
    else
      match get_unique_path existing f.name with
      | some d => .ok d
      | none => .error .ioError
  match named with
  | .error e => .error e
  | .ok d => if f.placeOk then .ok d else .error .ioError

/-- The `for file_path in source_dir.rglob('*')` loop: skip non-matching
files; for each matching file run the `try` block, on success count it,
remember the new target entry and log the success line, on failure log
the failure line and continue with the next file.  Returns the final
`processed_files` count and the log, in order. -/
def runLoop (env : HashEnv) (cfg : Config) :
    List SrcFile → List Name → Nat × List LogEntry
  | [], _ => (0, [])
  | f :: fs, existing =>
    if matchesCfg cfg f then
      match processFile env cfg existing f with
      | .ok d =>
        let r := runLoop env cfg fs (d :: existing)
        (r.1 + 1, .ok f.name d :: r.2)
      | .error e =>
        let r := runLoop env cfg fs existing
        (r.1, .fail f.name e :: r.2)
    else runLoop env cfg fs existing

end HashMover

namespace HashMover

/-! ### Sanity examples (concrete evaluations of the definitions) -/

example : splitext ("a.txt".data) = ("a".data, ".txt".data) := by decide

example : get_unique_path [] ("a.txt".data) = some ("a.txt".data) := by decide

example : get_unique_path [("a.txt".data)] ("a.txt".data) = some ("a_1.txt".data) := by decide

example :
    get_unique_path [("a_1.txt".data), ("a.txt".data)] ("a.txt".data) =
      some ("a_2.txt".data) := by decide

example : modeB [] ("d41d8".data) ("a.txt".data) 4 = some ("d41d_a.txt".data) := by decide

example :
    modeB [("d41d_a.txt".data)] ("d41da".data) ("a.txt".data) 4 =
      some ("d41da_a.txt".data) := by decide

example : modeBTrace [("0_a".data)] ("0".data) ("a".data) 2 = [2] := by decide

example : compute_file_hash hashlibEnv (some []) ("CRC32".data) = .ok ['0'] := by rfl

example : exceptOk (compute_file_hash hashlibEnv (some []) ("SHA1".data)) = true := by decide

example : exceptOk (compute_file_hash hashlibEnv (some []) ("foo".data)) = false := by decide

example :
    exceptOk (compute_file_hash hashlibEnv (some []) ("shake_128".data)) = false := by decide

example : pySuffix ("archive.tar.gz".data) = (".gz".data) := by decide

example : pySuffix (".txt".data) = [] := by decide

example : matchesExt false ("A.TXT".data) (".txt".data) = true := by decide

example : decChars 105 = ['1', '0', '5'] := by decide

/-! ### Character lemmas -/

theorem char_toNat_ofNat_valid {n : Nat} (h : n.isValidChar) :
    (Char.ofNat n).toNat = n := by
  rw [Char.ofNat, dif_pos h]
  rfl

theorem char_toNat_ofNat_of_lt {n : Nat} (h : n < 55296) :
    (Char.ofNat n).toNat = n :=
  char_toNat_ofNat_valid (Or.inl h)

theorem char_toNat_inj {c c' : Char} (h : c.toNat = c'.toNat) : c = c' := by
  apply Char.ext
  exact UInt32.toNat.inj h

theorem uint32_le_iff_toNat_le {a b : UInt32} : a ≤ b ↔ a.toNat ≤ b.toNat := by
  rw [UInt32.le_def, BitVec.le_def]
  exact Iff.rfl

/-- The branch taken by `algorithm.upper()` is determined by
`algorithm.lower()`: characters with equal lowercasings have equal
uppercasings. -/
theorem char_toUpper_eq_of_toLower_eq {c c' : Char}
    (h : c.toLower = c'.toLower) : c.toUpper = c'.toUpper := by
  unfold Char.toLower at h
  unfold Char.toUpper
  by_cases hc : 65 ≤ c.toNat ∧ c.toNat ≤ 90 <;>
    by_cases hc' : 65 ≤ c'.toNat ∧ c'.toNat ≤ 90
  · rw [if_pos hc, if_pos hc'] at h
    have : c.toNat = c'.toNat := by
      have h32 : (Char.ofNat (c.toNat + 32)).toNat = c.toNat + 32 :=
        char_toNat_ofNat_of_lt (by omega)
      have h32' : (Char.ofNat (c'.toNat + 32)).toNat = c'.toNat + 32 :=
        char_toNat_ofNat_of_lt (by omega)
      have := congrArg Char.toNat h
      rw [h32, h32'] at this
      omega
    rw [char_toNat_inj this]
  · rw [if_pos hc, if_neg hc'] at h
    have hval : c'.toNat = c.toNat + 32 := by
      have h32 : (Char.ofNat (c.toNat + 32)).toNat = c.toNat + 32 :=
        char_toNat_ofNat_of_lt (by omega)
      rw [← h, h32]
    rw [if_neg (by omega), if_pos (by omega), hval]
    have : c.toNat + 32 - 32 = c.toNat := by omega
    rw [this, Char.ofNat_toNat]
  · rw [if_neg hc, if_pos hc'] at h
    have hval : c.toNat = c'.toNat + 32 := by
      have h32' : (Char.ofNat (c'.toNat + 32)).toNat = c'.toNat + 32 :=
        char_toNat_ofNat_of_lt (by omega)
      rw [h, h32']
    rw [if_pos (by omega), if_neg (by omega), hval]
    have : c'.toNat + 32 - 32 = c'.toNat := by omega
    rw [this, Char.ofNat_toNat]
  · rw [if_neg hc, if_neg hc'] at h
    rw [h]

theorem map_toUpper_eq_of_map_toLower_eq {l l' : List Char}
    (h : l.map Char.toLower = l'.map Char.toLower) :
    l.map Char.toUpper = l'.map Char.toUpper := by
  induction l generalizing l' with
  | nil => cases l' <;> simp_all
  | cons a t ih =>
    cases l' with
    | nil => simp_all
    | cons a' t' =>
      simp only [List.map_cons, List.cons.injEq] at h ⊢
      exact ⟨char_toUpper_eq_of_toLower_eq h.1, ih h.2⟩

/-- Lowercasing never produces a dot from a non-dot. -/
theorem char_toLower_eq_dot_iff (c : Char) : c.toLower = '.' ↔ c = '.' := by
  constructor
  · intro h
    unfold Char.toLower at h
    by_cases hc : 65 ≤ c.toNat ∧ c.toNat ≤ 90
    · rw [if_pos hc] at h
      have h32 : (Char.ofNat (c.toNat + 32)).toNat = c.toNat + 32 :=
        char_toNat_ofNat_of_lt (by omega)
      have := congrArg Char.toNat h
      rw [h32] at this
      have : c.toNat + 32 = 46 := this
      omega
    · rwa [if_neg hc] at h
  · intro h
    rw [h]
    rfl

/-! ### Decimal rendering lemmas -/

theorem decDigitsAux_append {n : Nat} :
    ∀ (fuel fuel' : Nat) (acc : List Char), n < fuel → n < fuel' →
      decDigitsAux fuel n acc = decDigitsAux fuel' n [] ++ acc := by
  induction n using Nat.strong_induction_on with
  | _ n ih =>
    intro fuel fuel' acc hf hf'
    match fuel, fuel' with
    | f + 1, f' + 1 =>
      by_cases h10 : n < 10
      · simp [decDigitsAux, h10]
      · have hdiv : n / 10 < n := Nat.div_lt_self (by omega) (by omega)
        simp only [decDigitsAux, if_neg h10]
        rw [ih (n / 10) hdiv f (n / 10 + 1) (Char.ofNat (48 + n % 10) :: acc)
              (by omega) (by omega),
            ih (n / 10) hdiv f' (n / 10 + 1) [Char.ofNat (48 + n % 10)]
              (by omega) (by omega),
            List.append_assoc]
        rfl

theorem decVal_append_singleton (xs : List Char) (c : Char) :
    decVal (xs ++ [c]) = 10 * decVal xs + (c.toNat - 48) := by
  simp [decVal, List.foldl_append]

theorem decVal_decChars (n : Nat) : decVal (decChars n) = n := by
  induction n using Nat.strong_induction_on with
  | _ n ih =>
    by_cases h10 : n < 10
    · have : decChars n = [Char.ofNat (48 + n % 10)] := by
        simp [decChars, decDigitsAux, h10]
      rw [this]
      have hv : (Char.ofNat (48 + n % 10)).toNat = 48 + n % 10 :=
        char_toNat_ofNat_of_lt (by omega)
      simp [decVal, hv]
      omega
    · have hdiv : n / 10 < n := Nat.div_lt_self (by omega) (by omega)
      have hstep : decChars n = decChars (n / 10) ++ [Char.ofNat (48 + n % 10)] := by
        show decDigitsAux (n + 1) n [] = _
        simp only [decDigitsAux, if_neg h10]
        exact decDigitsAux_append n (n / 10 + 1) [Char.ofNat (48 + n % 10)] (by omega) (by omega)
      rw [hstep, decVal_append_singleton, ih (n / 10) hdiv]
      have hv : (Char.ofNat (48 + n % 10)).toNat = 48 + n % 10 :=
        char_toNat_ofNat_of_lt (by omega)
      rw [hv]
      omega

theorem decChars_injective : Function.Injective decChars := by
  intro m n h
  have := congrArg decVal h
  rwa [decVal_decChars, decVal_decChars] at this

theorem decChars_ne_nil (n : Nat) : decChars n ≠ [] := by
  by_cases h10 : n < 10
  · simp [decChars, decDigitsAux, h10]
  · have hstep : decChars n = decChars (n / 10) ++ [Char.ofNat (48 + n % 10)] := by
      show decDigitsAux (n + 1) n [] = _
      simp only [decDigitsAux, if_neg h10]
      exact decDigitsAux_append n (n / 10 + 1) [Char.ofNat (48 + n % 10)] (by omega) (by omega)
    simp [hstep]

theorem decChars_isDigit (n : Nat) : ∀ c ∈ decChars n, c.isDigit = true := by
  induction n using Nat.strong_induction_on with
  | _ n ih =>
    have hdigit : ∀ m : Nat, (Char.ofNat (48 + m % 10)).isDigit = true := by
      intro m
      have hm : m % 10 < 10 := Nat.mod_lt _ (by omega)
      have hv : (Char.ofNat (48 + m % 10)).toNat = 48 + m % 10 :=
        char_toNat_ofNat_of_lt (by omega)
      simp only [Char.isDigit]
      have h1 : (Char.ofNat (48 + m % 10)).val.toNat = 48 + m % 10 := hv
      have h48 : ('0' : Char).val.toNat = 48 := by decide
      have h57 : ('9' : Char).val.toNat = 57 := by decide
      rw [Bool.and_eq_true, decide_eq_true_iff, decide_eq_true_iff]
      constructor
      · show ('0' : Char).val ≤ _
        rw [uint32_le_iff_toNat_le, h48, h1]
        omega
      · show _ ≤ ('9' : Char).val
        rw [uint32_le_iff_toNat_le, h1, h57]
        omega
    by_cases h10 : n < 10
    · have : decChars n = [Char.ofNat (48 + n % 10)] := by
        simp [decChars, decDigitsAux, h10]
      rw [this]
      intro c hc
      rw [List.mem_singleton] at hc
      subst hc
      exact hdigit n
    · have hdiv : n / 10 < n := Nat.div_lt_self (by omega) (by omega)
      have hstep : decChars n = decChars (n / 10) ++ [Char.ofNat (48 + n % 10)] := by
        show decDigitsAux (n + 1) n [] = _
        simp only [decDigitsAux, if_neg h10]
        exact decDigitsAux_append n (n / 10 + 1) [Char.ofNat (48 + n % 10)] (by omega) (by omega)
      rw [hstep]
      intro c hc
      rw [List.mem_append, List.mem_singleton] at hc
      rcases hc with hc | hc
      · exact ih (n / 10) hdiv c hc
      · subst hc
        exact hdigit n

/-! ### `get_unique_path`: the candidate sequence -/

/-- `os.path.splitext` splits a name into two parts that concatenate
back to it. -/
theorem splitext_append (fn : Name) : (splitext fn).1 ++ (splitext fn).2 = fn := by
  unfold splitext
  split
  · simp
  · split
    · exact List.take_append_drop _ fn
    · simp

theorem candNum_inj (base ext : Name) {m n : Nat} (h : candNum base ext m = candNum base ext n) :
    m = n := by
  unfold candNum at h
  have h1 := List.append_cancel_left h
  rw [List.cons.injEq] at h1
  have h2 := (List.append_inj' h1.2 rfl).1
  exact decChars_injective h2

theorem candNum_length (base ext : Name) (n : Nat) :
    base.length + ext.length < (candNum base ext n).length := by
  have hne := decChars_ne_nil n
  have : 1 ≤ (decChars n).length := by
    cases h : decChars n with
    | nil => exact absurd h hne
    | cons a t => simp
  simp [candNum]
  omega

theorem suffixSeq_injective (fn base ext : Name) (hsplit : base ++ ext = fn) :
    Function.Injective (suffixSeq fn base ext) := by
  intro m n h
  match m, n with
  | 0, 0 => rfl
  | 0, n + 1 =>
    exfalso
    have hlen := congrArg List.length h
    have hc := candNum_length base ext (n + 1)
    have hfn : fn.length = base.length + ext.length := by
      rw [← hsplit, List.length_append]
    simp only [suffixSeq] at hlen
    omega
  | m + 1, 0 =>
    exfalso
    have hlen := congrArg List.length h
    have hc := candNum_length base ext (m + 1)
    have hfn : fn.length = base.length + ext.length := by
      rw [← hsplit, List.length_append]
    simp only [suffixSeq] at hlen
    omega
  | m + 1, n + 1 =>
    simp only [suffixSeq] at h
    have := candNum_inj base ext h
    omega

/-- Pigeonhole: among the first `existing.length + 1` candidates, at
least one is not an existing entry. -/
theorem suffixSeq_exists_free (existing : List Name) (fn base ext : Name)
    (hsplit : base ++ ext = fn) :
    ∃ i, i < existing.length + 1 ∧ suffixSeq fn base ext i ∉ existing := by
  by_contra hall
  push_neg at hall
  have hsub : (List.range (existing.length + 1)).map (suffixSeq fn base ext) ⊆ existing := by
    intro x hx
    rw [List.mem_map] at hx
    obtain ⟨i, hi, rfl⟩ := hx
    rw [List.mem_range] at hi
    exact hall i hi
  have hnodup : ((List.range (existing.length + 1)).map (suffixSeq fn base ext)).Nodup :=
    (List.nodup_range _).map (suffixSeq_injective fn base ext hsplit)
  have hlen := (hnodup.subperm hsub).length_le
  simp at hlen

/-- The fueled loop returns the first free candidate, provided one occurs
within the fuel. -/
theorem guPgo_finds (existing : List Name) (fn base ext : Name) :
    ∀ (i j fuel : Nat), i < fuel →
      suffixSeq fn base ext (j + i) ∉ existing →
      (∀ i', i' < i → suffixSeq fn base ext (j + i') ∈ existing) →
      guPgo existing base ext (suffixSeq fn base ext j) (j + 1) fuel =
        some (suffixSeq fn base ext (j + i)) := by
  intro i
  induction i with
  | zero =>
    intro j fuel hfuel hfree _
    obtain ⟨f, rfl⟩ : ∃ f, fuel = f + 1 := ⟨fuel - 1, by omega⟩
    rw [Nat.add_zero] at hfree ⊢
    simp only [guPgo]
    rw [if_neg hfree]
    rfl
  | succ i ih =>
    intro j fuel hfuel hfree hmin
    obtain ⟨f, rfl⟩ : ∃ f, fuel = f + 1 := ⟨fuel - 1, by omega⟩
    have hj : suffixSeq fn base ext j ∈ existing := by
      have := hmin 0 (by omega)
      simpa using this
    simp only [guPgo, if_pos hj]
    have hstep : candNum base ext (j + 1) = suffixSeq fn base ext (j + 1) := rfl
    rw [hstep]
    have := ih (j + 1) f (by omega)
      (by have h1 : j + 1 + i = j + (i + 1) := by omega
          rw [h1]; exact hfree)
      (by intro i' hi'
          have h1 : j + 1 + i' = j + (i' + 1) := by omega
          rw [h1]
          exact hmin (i' + 1) (by omega))
    rw [this]
    congr 2
    omega

/-- Full characterization of `get_unique_path`: it returns the first
candidate of the sequence (original name, then numbered names) that is
not an existing entry. -/
theorem get_unique_path_spec (existing : List Name) (fn : Name) :
    ∃ i, get_unique_path existing fn =
        some (suffixSeq fn (splitext fn).1 (splitext fn).2 i) ∧
      suffixSeq fn (splitext fn).1 (splitext fn).2 i ∉ existing ∧
      ∀ i', i' < i → suffixSeq fn (splitext fn).1 (splitext fn).2 i' ∈ existing := by
  obtain ⟨i, hi, hfree⟩ :=
    suffixSeq_exists_free existing fn (splitext fn).1 (splitext fn).2 (splitext_append fn)
  have hex : ∃ k, suffixSeq fn (splitext fn).1 (splitext fn).2 k ∉ existing := ⟨i, hfree⟩
  refine ⟨Nat.find hex, ?_, Nat.find_spec hex, fun i' hi' => ?_⟩
  · have hfind : Nat.find hex < existing.length + 1 :=
      Nat.lt_of_le_of_lt (Nat.find_min' hex hfree) hi
    have := guPgo_finds existing fn (splitext fn).1 (splitext fn).2 (Nat.find hex) 0
      (existing.length + 1) hfind
      (by simpa using Nat.find_spec hex)
      (by intro i' hi'
          have := Nat.find_min hex hi'
          simpa using this)
    simpa [get_unique_path] using this
  · have := Nat.find_min hex hi'
    simpa using this

/-- The loop never returns an entry that already exists: it only accepts
a name after the existence check fails. -/
theorem guPgo_not_mem (existing : List Name) (base ext : Name) :
    ∀ (fuel : Nat) (filename : Name) (counter : Nat) (r : Name),
      guPgo existing base ext filename counter fuel = some r → r ∉ existing := by
  intro fuel
  induction fuel with
  | zero => intro filename counter r h; simp [guPgo] at h
  | succ fuel ih =>
    intro filename counter r h
    simp only [guPgo] at h
    by_cases hmem : filename ∈ existing
    · rw [if_pos hmem] at h
      exact ih _ _ _ h
    · rw [if_neg hmem] at h
      obtain rfl : filename = r := by simpa using h
      exact hmem

theorem get_unique_path_not_mem (existing : List Name) (fn r : Name)
    (h : get_unique_path existing fn = some r) : r ∉ existing :=
  guPgo_not_mem existing (splitext fn).1 (splitext fn).2 _ fn 1 r h

/-- `get_unique_path` always succeeds within its fuel. -/
theorem get_unique_path_total (existing : List Name) (fn : Name) :
    ∃ r, get_unique_path existing fn = some r ∧ r ∉ existing := by
  obtain ⟨i, hres, hfree, _⟩ := get_unique_path_spec existing fn
  exact ⟨_, hres, hfree⟩

/-! ### Mode B lemmas -/

/-- Once `prefix_len` has reached the digest's length, the slice is the
whole digest. -/
theorem candHash_of_ge (digest name : Name) {p : Nat} (h : digest.length ≤ p) :
    candHash digest name p = digest ++ '_' :: name := by
  unfold candHash
  rw [List.take_of_length_le h]

/-- The Mode B loop never returns an entry that already exists. -/
theorem modeBgo_not_mem (existing : List Name) (digest name : Name) :
    ∀ (k p : Nat) (r : Name),
      (modeBgo existing digest name k p).1 = some r → r ∉ existing := by
  intro k
  induction k with
  | zero =>
    intro p r h
    simp only [modeBgo] at h
    by_cases hmem : candHash digest name p ∈ existing
    · rw [if_pos hmem] at h
      exact get_unique_path_not_mem existing (candHash digest name p) r h
    · rw [if_neg hmem] at h
      obtain rfl : candHash digest name p = r := by simpa using h
      exact hmem
  | succ k ih =>
    intro p r h
    simp only [modeBgo] at h
    by_cases hmem : candHash digest name p ∈ existing
    · rw [if_pos hmem] at h
      exact ih (p + 1) r h
    · rw [if_neg hmem] at h
      obtain rfl : candHash digest name p = r := by simpa using h
      exact hmem

theorem modeB_not_mem (existing : List Name) (digest name : Name) (p : Nat) (r : Name)
    (h : modeB existing digest name p = some r) : r ∉ existing :=
  modeBgo_not_mem existing digest name _ p r h

/-- The Mode B loop always succeeds: either a free prefixed candidate is
accepted, or the numeric-suffix fallback succeeds. -/
theorem modeB_total (existing : List Name) (digest name : Name) (p : Nat) :
    ∃ r, modeB existing digest name p = some r ∧ r ∉ existing := by
  unfold modeB
  generalize digest.length - p = k
  induction k generalizing p with
  | zero =>
    by_cases hmem : candHash digest name p ∈ existing
    · simp only [modeBgo, if_pos hmem]
      exact get_unique_path_total existing (candHash digest name p)
    · simp only [modeBgo, if_neg hmem]
      exact ⟨_, rfl, hmem⟩
  | succ k ih =>
    by_cases hmem : candHash digest name p ∈ existing
    · simp only [modeBgo, if_pos hmem]
      exact ih (p + 1)
    · simp only [modeBgo, if_neg hmem]
      exact ⟨_, rfl, hmem⟩

/-- Characterization of the Mode B loop, for the fuel value used by
`modeB`: starting from `p` with `p + k = max p digest.length`, the loop
returns the first free candidate among prefix lengths `p, p+1, ...,
p+k`, and if all of them collide it returns the numeric-suffix fallback
on the full-digest-prefixed name. -/
theorem modeBgo_spec (existing : List Name) (digest name : Name) :
    ∀ (k p : Nat), p + k = max p digest.length →
      (∃ q, p ≤ q ∧ q ≤ p + k ∧ candHash digest name q ∉ existing ∧
        (∀ q', p ≤ q' → q' < q → candHash digest name q' ∈ existing) ∧
        (modeBgo existing digest name k p).1 = some (candHash digest name q)) ∨
      ((∀ q, p ≤ q → q ≤ p + k → candHash digest name q ∈ existing) ∧
        (modeBgo existing digest name k p).1 =
          get_unique_path existing (digest ++ '_' :: name)) := by
  intro k
  induction k with
  | zero =>
    intro p hk
    by_cases hmem : candHash digest name p ∈ existing
    · right
      constructor
      · intro q hq hq'
        have : q = p := by omega
        rwa [this]
      · simp only [modeBgo, if_pos hmem]
        have hge : digest.length ≤ p := by omega
        rw [candHash_of_ge digest name hge]
    · left
      refine ⟨p, Nat.le_refl p, by omega, hmem, by omega, ?_⟩
      simp only [modeBgo, if_neg hmem]
  | succ k ih =>
    intro p hk
    by_cases hmem : candHash digest name p ∈ existing
    · have hlt : p < digest.length := by omega
      have hk' : p + 1 + k = max (p + 1) digest.length := by omega
      rcases ih (p + 1) hk' with ⟨q, hq1, hq2, hqfree, hqmin, hres⟩ | ⟨hall, hres⟩
      · left
        refine ⟨q, by omega, by omega, hqfree, ?_, ?_⟩
        · intro q' hq' hq''
          rcases Nat.eq_or_lt_of_le hq' with rfl | h
          · exact hmem
          · exact hqmin q' (by omega) hq''
        · simp only [modeBgo, if_pos hmem]
          exact hres
      · right
        constructor
        · intro q hq hq'
          rcases Nat.eq_or_lt_of_le hq with rfl | h
          · exact hmem
          · exact hall q (by omega) (by omega)
        · simp only [modeBgo, if_pos hmem]
          exact hres
    · left
      refine ⟨p, Nat.le_refl p, by omega, hmem, by omega, ?_⟩
      simp only [modeBgo, if_neg hmem]

/-- The probed prefix lengths: the trace starts at `p`, increases
strictly, and stays within `[p, p + k]`. -/
theorem modeBgo_trace (existing : List Name) (digest name : Name) :
    ∀ (k p : Nat),
      (modeBgo existing digest name k p).2.head? = some p ∧
      List.Chain' (fun a b => a < b) (modeBgo existing digest name k p).2 ∧
      (∀ q ∈ (modeBgo existing digest name k p).2, p ≤ q ∧ q ≤ p + k) := by
  intro k
  induction k with
  | zero =>
    intro p
    by_cases hmem : candHash digest name p ∈ existing <;>
      simp [modeBgo, hmem]
  | succ k ih =>
    intro p
    by_cases hmem : candHash digest name p ∈ existing
    · simp only [modeBgo, if_pos hmem]
      obtain ⟨hhead, hchain, hbound⟩ := ih (p + 1)
      refine ⟨rfl, ?_, ?_⟩
      · rw [List.chain'_cons']
        constructor
        · intro b hb
          rw [hhead] at hb
          obtain rfl : p + 1 = b := by simpa using hb
          omega
        · exact hchain
      · intro q hq
        rcases List.mem_cons.mp hq with rfl | hq
        · omega
        · have := hbound q hq
          omega
    · simp [modeBgo, hmem]

/-! ### `compute_file_hash` lemmas -/

theorem hexDigit_mem (n : Nat) : hexDigit n ∈ ("0123456789abcdef".data) := by
  unfold hexDigit
  rw [List.getD_eq_getElem?_getD]
  rcases h : ("0123456789abcdef".data)[n]? with _ | c
  · simp only [Option.getD_none]
    decide
  · simp only [Option.getD_some]
    exact List.getElem?_mem h

theorem hexBytes_mem (bs : List Nat) :
    ∀ c ∈ hexBytes bs, c ∈ ("0123456789abcdef".data) := by
  intro c hc
  unfold hexBytes at hc
  rw [List.mem_flatMap] at hc
  obtain ⟨b, _, hb⟩ := hc
  unfold hexByte at hb
  simp only [List.mem_cons, List.not_mem_nil, or_false] at hb
  rcases hb with rfl | rfl
  · exact hexDigit_mem _
  · exact hexDigit_mem _

/-- The checksum branch: any case spelling of CRC32 yields the decimal
rendering of the running value masked to 32 bits. -/
theorem compute_file_hash_crc (env : HashEnv) (bytes : List Nat) (alg : Name)
    (h : alg.map Char.toUpper = ("CRC32".data)) :
    compute_file_hash env (some bytes) alg =
      .ok (decChars (crcFold env.crc32 (chunks4096 bytes) 0 &&& 0xffffffff)) := by
  unfold compute_file_hash
  rw [if_pos h]

/-- The hashlib branch on an accepted name: the lowercase hexadecimal
rendering of the digest's bytes. -/
theorem compute_file_hash_hex (env : HashEnv) (bytes : List Nat) (alg : Name)
    (h : alg.map Char.toUpper ≠ ("CRC32".data))
    (h' : alg.map Char.toLower ∈ env.available) :
    compute_file_hash env (some bytes) alg =
      .ok (hexBytes (env.digest (alg.map Char.toLower) bytes)) := by
  unfold compute_file_hash
  rw [if_neg h, if_pos (env.available_le _ h')]
  show (if alg.map Char.toLower ∈ env.available then _ else _) = _
  rw [if_pos h']

/-- A `hashlib.new`-accepted name whose digest object does not support
the zero-argument `hexdigest()` call — a shake XOF — fails with
`TypeError` once the file has been read. -/
theorem compute_file_hash_shake (env : HashEnv) (bytes : List Nat) (alg : Name)
    (h : alg.map Char.toUpper ≠ ("CRC32".data))
    (hnew : alg.map Char.toLower ∈ env.newAccepted)
    (hav : alg.map Char.toLower ∉ env.available) :
    compute_file_hash env (some bytes) alg = .error .typeError := by
  unfold compute_file_hash
  rw [if_neg h, if_pos hnew]
  show (if alg.map Char.toLower ∈ env.available then _ else _) = _
  rw [if_neg hav]

/-- The successful digest string depends on the algorithm name only
through its lowercasing. -/
theorem compute_file_hash_case_insensitive (env : HashEnv) (content : Option (List Nat))
    (alg alg' : Name) (h : alg.map Char.toLower = alg'.map Char.toLower) (r : Name) :
    compute_file_hash env content alg = .ok r ↔
      compute_file_hash env content alg' = .ok r := by
  have hup := map_toUpper_eq_of_map_toLower_eq h
  unfold compute_file_hash
  by_cases hcrc : alg.map Char.toUpper = ("CRC32".data)
  · rw [if_pos hcrc, if_pos (hup ▸ hcrc)]
  · have hcrc' : alg'.map Char.toUpper ≠ ("CRC32".data) := by
      rw [← hup]; exact hcrc
    rw [if_neg hcrc, if_neg hcrc', h]
    by_cases hnew : alg'.map Char.toLower ∈ env.newAccepted
    · rw [if_pos hnew, if_pos hnew]
    · rw [if_neg hnew, if_neg hnew]
      constructor <;> intro hfalse <;> exact absurd hfalse (by simp)

/-- `compute_file_hash` raises `ValueError` exactly for an algorithm
that is not CRC32 (in any case) and whose lowercase name `hashlib.new`
does not accept; the check precedes any read of the file. -/
theorem compute_file_hash_unsupported_iff (env : HashEnv) (content : Option (List Nat))
    (alg : Name) :
    compute_file_hash env content alg = .error (.unsupportedAlgorithm alg) ↔
      (alg.map Char.toUpper ≠ ("CRC32".data) ∧ alg.map Char.toLower ∉ env.newAccepted) := by
  unfold compute_file_hash
  by_cases hcrc : alg.map Char.toUpper = ("CRC32".data)
  · rw [if_pos hcrc]
    simp only [hcrc]
    cases content <;> simp
  · rw [if_neg hcrc]
    by_cases hnew : alg.map Char.toLower ∈ env.newAccepted
    · rw [if_pos hnew]
      cases content with
      | none => simp [hcrc, hnew]
      | some bytes =>
        by_cases hav : alg.map Char.toLower ∈ env.available
        · show (if alg.map Char.toLower ∈ env.available then _ else _) = _ ↔ _
          rw [if_pos hav]
          simp [hcrc, hnew]
        · show (if alg.map Char.toLower ∈ env.available then _ else _) = _ ↔ _
          rw [if_neg hav]
          simp [hcrc, hnew]
    · rw [if_neg hnew]
      simp [hcrc, hnew]

/-! ### `pathlib` suffix lemmas -/

theorem rfindDot_none_count {l : List Char} (h : rfindDot l = none) :
    l.count '.' = 0 := by
  induction l with
  | nil => rfl
  | cons c cs ih =>
    simp only [rfindDot] at h
    rcases hr : rfindDot cs with _ | i
    · rw [hr] at h
      by_cases hc : c = '.'
      · rw [if_pos hc] at h
        cases h
      · rw [List.count_cons]
        rw [ih hr]
        simp [hc, beq_iff_eq]
    · rw [hr] at h
      cases h

theorem rfindDot_some (l : List Char) :
    ∀ i, rfindDot l = some i →
      i < l.length ∧ l.drop i = '.' :: l.drop (i + 1) ∧ (l.drop (i + 1)).count '.' = 0 := by
  induction l with
  | nil => intro i h; cases h
  | cons c cs ih =>
    intro i h
    simp only [rfindDot] at h
    rcases hr : rfindDot cs with _ | j
    · rw [hr] at h
      by_cases hc : c = '.'
      · rw [if_pos hc] at h
        obtain rfl : (0 : Nat) = i := by simpa using h
        refine ⟨by simp, ?_, ?_⟩
        · simp [hc]
        · simpa using rfindDot_none_count hr
      · rw [if_neg hc] at h
        cases h
    · rw [hr] at h
      obtain rfl : j + 1 = i := by simpa using h
      obtain ⟨h1, h2, h3⟩ := ih j hr
      refine ⟨by simp; omega, ?_, ?_⟩
      · simpa using h2
      · simpa using h3

/-- The suffix computed by `pathlib` is empty or consists of a dot
followed by dot-free characters: it never contains two dots. -/
theorem pySuffix_count_dot (nm : Name) : (pySuffix nm).count '.' ≤ 1 := by
  unfold pySuffix
  rcases h : rfindDot nm with _ | i
  · simp
  · obtain ⟨h1, h2, h3⟩ := rfindDot_some nm i h
    show List.count '.' (if 0 < i ∧ i < nm.length - 1 then nm.drop i else []) ≤ 1
    by_cases hcond : 0 < i ∧ i < nm.length - 1
    · rw [if_pos hcond, h2, List.count_cons]
      rw [h3]
      simp
    · rw [if_neg hcond]
      simp

theorem count_dot_map_toLower (l : List Char) :
    (l.map Char.toLower).count '.' = l.count '.' := by
  induction l with
  | nil => rfl
  | cons c cs ih =>
    simp only [List.map_cons, List.count_cons, ih]
    congr 1
    rcases hc : (c == '.') with _ | _
    · have : ¬ c.toLower = '.' := by
        rw [char_toLower_eq_dot_iff]
        simpa using hc
      simp [this]
    · have hc' : c = '.' := by simpa using hc
      have : c.toLower = '.' := (char_toLower_eq_dot_iff c).mpr hc'
      simp [this]

/-- A normalized extension always starts with a dot. -/
theorem normalizeExt_cons (e : Name) : ∃ t, normalizeExt e = '.' :: t := by
  match e with
  | [] => exact ⟨[], rfl⟩
  | c :: t =>
    show ∃ u, (if c = '.' then c :: t else '.' :: c :: t) = '.' :: u
    by_cases hc : c = '.'
    · rw [if_pos hc, hc]
      exact ⟨t, rfl⟩
    · rw [if_neg hc]
      exact ⟨c :: t, rfl⟩

/-! ### Run-loop lemmas -/

/-- C7: per-file errors during fingerprinting, naming, or placement are
caught at the per-file boundary and logged with the offending path (and,
in a `fail` entry, the reason), and processing continues with the next
file: the log has exactly one line per selected file, in order, carrying
that file's path, and the final reported count equals the number of
successfully processed files (the success lines of the log), no matter
how many per-file failures occurred. -/
theorem C7_error_policy (env : HashEnv) (cfg : Config) :
    ∀ (files : List SrcFile) (existing : List Name),
      (runLoop env cfg files existing).1 =
        ((runLoop env cfg files existing).2.countP (fun e => LogEntry.isOk e)) ∧
      (runLoop env cfg files existing).2.map LogEntry.src =
        (files.filter (fun f => matchesCfg cfg f)).map SrcFile.name := by
  intro files
  induction files with
  | nil => intro existing; simp [runLoop]
  | cons f fs ih =>
    intro existing
    by_cases hm : matchesCfg cfg f
    · rcases hp : processFile env cfg existing f with e | d
      · simp only [runLoop, if_pos hm, hp, List.filter_cons, hm, if_true,
          List.map_cons, List.countP_cons]
        obtain ⟨ih1, ih2⟩ := ih existing
        refine ⟨?_, ?_⟩
        · simp [LogEntry.isOk, ih1]
        · simp [LogEntry.src, ih2]
      · simp only [runLoop, if_pos hm, hp, List.filter_cons, hm, if_true,
          List.map_cons, List.countP_cons]
        obtain ⟨ih1, ih2⟩ := ih (d :: existing)
        refine ⟨?_, ?_⟩
        · simp [LogEntry.isOk, ih1]
        · simp [LogEntry.src, ih2]
    · simp only [runLoop, if_neg hm, List.filter_cons, hm, if_false]
      exact ih existing

/-! ### Claim theorems -/

/-- C1: the Namer returns a destination that does not exist in the
target directory at decision time — for the numeric-suffix namer and for
the Mode B namer alike — and when two files are named in sequence under
Mode B (`L ≠ 0`), the first file being placed at its returned path
before the second is named, the two returned paths are distinct.  This
holds for any two digests, in particular for the digests of two files
with distinct content. -/
theorem C1_namer_fresh_and_distinct (existing : List Name) :
    (∀ fn r, get_unique_path existing fn = some r → r ∉ existing) ∧
    (∀ digest nm p r, modeB existing digest nm p = some r → r ∉ existing) ∧
    (∀ d1 n1 d2 n2 (L : Int) r1 r2, L ≠ 0 →
      modeB existing d1 n1 L.natAbs = some r1 →
      modeB (r1 :: existing) d2 n2 L.natAbs = some r2 →
      r2 ≠ r1) := by
  refine ⟨fun fn r h => get_unique_path_not_mem existing fn r h,
          fun digest nm p r h => modeB_not_mem existing digest nm p r h,
          fun d1 n1 d2 n2 L r1 r2 hL h1 h2 => ?_⟩
  have hfresh := modeB_not_mem (r1 :: existing) d2 n2 L.natAbs r2 h2
  intro heq
  exact hfresh (by rw [heq]; exact List.mem_cons_self r1 existing)

theorem C1_witness : ("ab_x".data) ≠ ("a_x".data) :=
  (C1_namer_fresh_and_distinct []).2.2 ("aa".data) ("x".data) ("ab".data) ("x".data)
    1 ("a_x".data) ("ab_x".data) (by decide) (by decide) (by decide)

/-- C2: in Mode B (`L ≠ 0`) the loop starts at `p = |L|`, forms the
candidate `digest[0:p] + "_" + filename`, accepts the first candidate
that does not exist in the target directory (probing `p, p+1, ...` as
long as `p < len(digest)`), and if every probed candidate collides it
falls back to the numeric-suffix scheme applied to the
full-digest-prefixed name.  (`max |L| len(digest)` equals `len(digest)`
in the ordinary case `|L| ≤ len(digest)`.) -/
theorem C2_modeB_algorithm (existing : List Name) (digest nm : Name) (L : Int) (_hL : L ≠ 0) :
    (∃ q, L.natAbs ≤ q ∧ q ≤ max L.natAbs digest.length ∧
      candHash digest nm q ∉ existing ∧
      (∀ q', L.natAbs ≤ q' → q' < q → candHash digest nm q' ∈ existing) ∧
      modeB existing digest nm L.natAbs = some (candHash digest nm q)) ∨
    ((∀ q, L.natAbs ≤ q → q ≤ max L.natAbs digest.length →
        candHash digest nm q ∈ existing) ∧
      modeB existing digest nm L.natAbs =
        get_unique_path existing (digest ++ '_' :: nm)) := by
  have hk : L.natAbs + (digest.length - L.natAbs) = max L.natAbs digest.length := by
    rcases Nat.le_total L.natAbs digest.length with h | h
    · rw [Nat.max_eq_right h]; omega
    · rw [Nat.max_eq_left h]; omega
  have hspec := modeBgo_spec existing digest nm (digest.length - L.natAbs) L.natAbs hk
  rw [hk] at hspec
  exact hspec

theorem C2_witness :
    (∃ q, (1 : Int).natAbs ≤ q ∧ q ≤ max (1 : Int).natAbs (("f".data) : Name).length ∧
      candHash ("f".data) ("a".data) q ∉ ([] : List Name) ∧
      (∀ q', (1 : Int).natAbs ≤ q' → q' < q →
        candHash ("f".data) ("a".data) q' ∈ ([] : List Name)) ∧
      modeB [] ("f".data) ("a".data) (1 : Int).natAbs =
        some (candHash ("f".data) ("a".data) q)) ∨
    ((∀ q, (1 : Int).natAbs ≤ q → q ≤ max (1 : Int).natAbs (("f".data) : Name).length →
        candHash ("f".data) ("a".data) q ∈ ([] : List Name)) ∧
      modeB [] ("f".data) ("a".data) (1 : Int).natAbs =
        get_unique_path [] (("f".data) ++ '_' :: ("a".data))) :=
  C2_modeB_algorithm [] ("f".data) ("a".data) 1 (by decide)

/-- C3 (amended): `compute_file_hash` fails with the
unsupported-algorithm `ValueError` exactly when the requested name is
not CRC32 (case-insensitively) and `hashlib.new` rejects its lowercase
form.  The rejected set is not the complement of the spec's seven:
`hashlib.new` also accepts names outside them, such as SHA1 (see
`C3_counterexample`), which then succeed on a readable file, while the
listed MD2/MD4 are accepted only in builds that provide them.
Acceptance by `hashlib.new` does not imply success either: a readable
file digests successfully for CRC32 (any case) and for every name whose
object supports the zero-argument `hexdigest()`, but an accepted shake
XOF fails with `TypeError` at that call. -/
theorem C3_unsupported_characterization (env : HashEnv)
    (content : Option (List Nat)) (alg : Name) :
    (compute_file_hash env content alg = .error (.unsupportedAlgorithm alg) ↔
      (alg.map Char.toUpper ≠ ("CRC32".data) ∧ alg.map Char.toLower ∉ env.newAccepted)) ∧
    (∀ bytes, content = some bytes →
      (alg.map Char.toUpper = ("CRC32".data) ∨ alg.map Char.toLower ∈ env.available) →
      exceptOk (compute_file_hash env content alg) = true) ∧
    (∀ bytes, content = some bytes →
      alg.map Char.toUpper ≠ ("CRC32".data) →
      alg.map Char.toLower ∈ env.newAccepted →
      alg.map Char.toLower ∉ env.available →
      compute_file_hash env content alg = .error .typeError) := by
  refine ⟨compute_file_hash_unsupported_iff env content alg, ?_, ?_⟩
  · rintro bytes rfl (hcrc | hav)
    · rw [compute_file_hash_crc env bytes alg hcrc]
      rfl
    · by_cases hcrc : alg.map Char.toUpper = ("CRC32".data)
      · rw [compute_file_hash_crc env bytes alg hcrc]
        rfl
      · rw [compute_file_hash_hex env bytes alg hcrc hav]
        rfl
  · rintro bytes rfl hcrc hnew hav
    exact compute_file_hash_shake env bytes alg hcrc hnew hav

/-- C3 counterexample: with the algorithm names every Python `hashlib`
provides, the name SHA1 — outside the set {CRC32, MD2, MD4, MD5, SHA256,
SHA384, SHA512} even case-insensitively — succeeds on a readable file
instead of failing as the claim requires. -/
theorem C3_counterexample :
    exceptOk (compute_file_hash hashlibEnv (some []) ("SHA1".data)) = true ∧
    ("SHA1".data).map Char.toLower ∉
      specRecognizedSet.map (fun a => a.map Char.toLower) := by
  decide

theorem C3_witness :
    exceptOk (compute_file_hash hashlibEnv (some []) ("md5".data)) = true ∧
    compute_file_hash hashlibEnv (some []) ("shake_128".data) = .error .typeError :=
  ⟨(C3_unsupported_characterization hashlibEnv (some []) ("md5".data)).2.1 [] rfl
     (Or.inr (by decide)),
   (C3_unsupported_characterization hashlibEnv (some []) ("shake_128".data)).2.2 [] rfl
     (by decide) (by decide) (by decide)⟩

/-- C4 (amended): for every Mode B naming decision the probed prefix
lengths start at `|L| ≥ 1`, grow strictly (never shrink), and remain in
`[1, max |L| len(digest)]`; they remain in `[1, len(digest)]` whenever
the configured `|L|` does not itself exceed the digest length.  The
original bound `len(digest)` fails when `|L| > len(digest)`:
see `C4_counterexample`. -/
theorem C4_trace_bounds (existing : List Name) (digest nm : Name) (L : Int) (hL : L ≠ 0) :
    (modeBTrace existing digest nm L.natAbs).head? = some L.natAbs ∧
    List.Chain' (fun a b => a < b) (modeBTrace existing digest nm L.natAbs) ∧
    (∀ q ∈ modeBTrace existing digest nm L.natAbs,
      1 ≤ q ∧ q ≤ max L.natAbs digest.length) ∧
    (L.natAbs ≤ digest.length →
      ∀ q ∈ modeBTrace existing digest nm L.natAbs, q ≤ digest.length) := by
  have hpos : 1 ≤ L.natAbs := Int.natAbs_pos.mpr hL
  have hk : L.natAbs + (digest.length - L.natAbs) = max L.natAbs digest.length := by
    rcases Nat.le_total L.natAbs digest.length with h | h
    · rw [Nat.max_eq_right h]; omega
    · rw [Nat.max_eq_left h]; omega
  obtain ⟨hhead, hchain, hbound⟩ :=
    modeBgo_trace existing digest nm (digest.length - L.natAbs) L.natAbs
  refine ⟨hhead, hchain, ?_, ?_⟩
  · intro q hq
    have := hbound q hq
    omega
  · intro hle q hq
    have := hbound q hq
    have hmax : max L.natAbs digest.length = digest.length := Nat.max_eq_right hle
    omega

/-- C4 counterexample: configured prefix length 2 with the one-character
digest `"0"` (the CRC32 digest of an empty file) and target directory
containing `0_a`: the loop probes prefix length 2, outside
`[1, len(digest)] = [1, 1]`, before falling back to numeric suffixing. -/
theorem C4_counterexample :
    ¬ (∀ q ∈ modeBTrace [("0_a".data)] ("0".data) ("a".data) ((2 : Int).natAbs),
        1 ≤ q ∧ q ≤ (("0".data) : Name).length) := by
  decide

theorem C4_witness :
    (modeBTrace [] ("ff".data) ("a".data) ((1 : Int).natAbs)).head? =
      some ((1 : Int).natAbs) ∧
    List.Chain' (fun a b => a < b)
      (modeBTrace [] ("ff".data) ("a".data) ((1 : Int).natAbs)) ∧
    (∀ q ∈ modeBTrace [] ("ff".data) ("a".data) ((1 : Int).natAbs),
      1 ≤ q ∧ q ≤ max ((1 : Int).natAbs) (("ff".data) : Name).length) ∧
    ((1 : Int).natAbs ≤ (("ff".data) : Name).length →
      ∀ q ∈ modeBTrace [] ("ff".data) ("a".data) ((1 : Int).natAbs),
        q ≤ (("ff".data) : Name).length) :=
  C4_trace_bounds [] ("ff".data) ("a".data) 1 (by decide)

/-- C5: Mode A returns the candidate name unchanged when it does not
exist in the target directory; otherwise it splits the name into stem
and extension and returns `stem_n + ext` for the least `n ≥ 1` that is
unused, every smaller `n` being used.  Concretely, a second `a.txt`
yields `a_1.txt` and a third yields `a_2.txt`. -/
theorem C5_modeA (existing : List Name) (fn : Name) :
    (fn ∉ existing → get_unique_path existing fn = some fn) ∧
    (fn ∈ existing → ∃ n, 1 ≤ n ∧
      get_unique_path existing fn =
        some (candNum (splitext fn).1 (splitext fn).2 n) ∧
      candNum (splitext fn).1 (splitext fn).2 n ∉ existing ∧
      (∀ m, 1 ≤ m → m < n → candNum (splitext fn).1 (splitext fn).2 m ∈ existing)) ∧
    get_unique_path [("a.txt".data)] ("a.txt".data) = some ("a_1.txt".data) ∧
    get_unique_path [("a_1.txt".data), ("a.txt".data)] ("a.txt".data) =
      some ("a_2.txt".data) := by
  refine ⟨?_, ?_, by decide, by decide⟩
  · intro hfree
    show guPgo existing (splitext fn).1 (splitext fn).2 fn 1 (existing.length + 1) =
      some fn
    simp only [guPgo]
    rw [if_neg hfree]
  · intro hmem
    obtain ⟨i, hres, hfree, hmin⟩ := get_unique_path_spec existing fn
    match i, hres, hfree, hmin with
    | 0, _, hfree, _ => exact absurd hmem hfree
    | n + 1, hres, hfree, hmin =>
      refine ⟨n + 1, by omega, hres, hfree, ?_⟩
      intro m h1 h2
      match m, h1 with
      | m + 1, _ => exact hmin (m + 1) (by omega)

theorem C5_witness : get_unique_path [] ("b.txt".data) = some ("b.txt".data) :=
  (C5_modeA [] ("b.txt".data)).1 (by decide)

/-- C6: for a readable file, CRC32 (in any case) renders as the decimal
digits of a value below 2^32; every other accepted algorithm renders as
a lowercase hexadecimal string; and the digest string depends on the
algorithm name only through its lowercase form. -/
theorem C6_rendering (env : HashEnv) (bytes : List Nat) (alg alg' : Name) :
    (alg.map Char.toUpper = ("CRC32".data) →
      ∃ v, v < 4294967296 ∧
        compute_file_hash env (some bytes) alg = .ok (decChars v) ∧
        ∀ c ∈ decChars v, c.isDigit = true) ∧
    (alg.map Char.toUpper ≠ ("CRC32".data) → alg.map Char.toLower ∈ env.available →
      ∃ out, compute_file_hash env (some bytes) alg = .ok out ∧
        ∀ c ∈ out, c ∈ ("0123456789abcdef".data)) ∧
    (∀ (content : Option (List Nat)) (r : Name),
      alg.map Char.toLower = alg'.map Char.toLower →
      (compute_file_hash env content alg = .ok r ↔
        compute_file_hash env content alg' = .ok r)) := by
  refine ⟨?_, ?_, ?_⟩
  · intro hcrc
    refine ⟨crcFold env.crc32 (chunks4096 bytes) 0 &&& 0xffffffff, ?_,
      compute_file_hash_crc env bytes alg hcrc, decChars_isDigit _⟩
    have hle : crcFold env.crc32 (chunks4096 bytes) 0 &&& 0xffffffff ≤ 0xffffffff :=
      Nat.and_le_right
    omega
  · intro hcrc hav
    exact ⟨_, compute_file_hash_hex env bytes alg hcrc hav, hexBytes_mem _⟩
  · intro content r h
    exact compute_file_hash_case_insensitive env content alg alg' h r

theorem C6_witness :
    (∃ v, v < 4294967296 ∧
      compute_file_hash hashlibEnv (some [1]) ("Crc32".data) = .ok (decChars v) ∧
      ∀ c ∈ decChars v, c.isDigit = true) ∧
    (compute_file_hash hashlibEnv (some [1]) ("sha256".data) = .ok (hexBytes []) ↔
      compute_file_hash hashlibEnv (some [1]) ("SHA256".data) = .ok (hexBytes [])) :=
  ⟨(C6_rendering hashlibEnv [1] ("Crc32".data) ("Crc32".data)).1 (by decide),
   (C6_rendering hashlibEnv [1] ("sha256".data) ("SHA256".data)).2.2
     (some [1]) (hexBytes []) (by decide)⟩

/-- C8: numeric-suffix probing always terminates: for every candidate
filename and every (finite) list of existing entries, the loop reaches
an unused name within `existing.length + 1` probes and returns it. -/
theorem C8_suffix_probing_terminates (existing : List Name) (fn : Name) :
    ∃ r, get_unique_path existing fn = some r ∧ r ∉ existing :=
  get_unique_path_total existing fn

/-- C9: the CRC32 digest of an empty file (no bytes, so no blocks are
folded into the running value 0) is the decimal string "0". -/
theorem C9_crc32_empty (env : HashEnv) :
    compute_file_hash env (some []) ("CRC32".data) = .ok ("0".data) := by
  rw [compute_file_hash_crc env [] ("CRC32".data) (by decide)]
  have h : crcFold env.crc32 (chunks4096 []) 0 = 0 := rfl
  rw [h]
  rfl

/-- C10: selection compares only the final dot-suffix of each filename
with the configured extension: a multi-component extension such as
`.tar.gz` matches no filename (the suffix of `archive.tar.gz` is `.gz`),
and a file whose whole name is the extension, such as `.txt`, has an
empty suffix and is never selected, whatever extension is configured. -/
theorem C10_suffix_only (nm e : Name) (cs : Bool) :
    matchesExt cs nm (normalizeExt (".tar.gz".data)) = false ∧
    pySuffix ("archive.tar.gz".data) = (".gz".data) ∧
    matchesExt cs (".txt".data) (normalizeExt e) = false := by
  refine ⟨?_, by decide, ?_⟩
  · have hcount := pySuffix_count_dot nm
    have hnorm : normalizeExt (".tar.gz".data) = (".tar.gz".data) := by decide
    have h2 : List.count '.' (".tar.gz".data) = 2 := by decide
    have h2l : List.count '.' ((".tar.gz".data).map Char.toLower) = 2 := by decide
    unfold matchesExt
    rw [hnorm]
    cases cs
    · rw [if_neg (by simp)]
      rw [decide_eq_false_iff_not]
      intro heq
      have := count_dot_map_toLower (pySuffix nm)
      rw [heq, h2l] at this
      omega
    · rw [if_pos rfl]
      rw [decide_eq_false_iff_not]
      intro heq
      rw [heq, h2] at hcount
      omega
  · obtain ⟨t, ht⟩ := normalizeExt_cons e
    have hsuf : pySuffix (".txt".data) = [] := by decide
    unfold matchesExt
    rw [ht, hsuf]
    cases cs
    · rw [if_neg (by simp)]
      simp
    · rw [if_pos rfl]
      simp

end HashMover
